import Mathlib

/-!
# Verification of the expression-compiler pipeline

Shallow embedding of the Rust sources `src/lexer.rs`, `src/parser.rs` and
`src/codegen.rs` of the `c-compiler-edu` repository, together with proofs of
the frozen specification claims.

Conventions of the embedding:
* Rust `char::is_numeric` / `char::is_whitespace` are modelled on the ASCII
  fragment the program manipulates (`Char.isDigit`, `Char.isWhitespace`);
  every character the claims mention is ASCII.
* Rust iterators over characters become `List Char`; the token cursor
  becomes a `List Tok` suffix.
* `isize` is the 64-bit signed integer type of the compilation target;
  `str::parse::<isize>` is modelled by `parseIsize` with the two's-complement
  bounds written out explicitly.
* Fallible Rust functions returning `Result` become `Except String`.
-/

namespace CCompiler

/-- `Reserved` from `lexer.rs`: the closed set of reserved symbols. -/
inductive Reserved where
  | LeftParen
  | RightParen
  | Plus
  | Minus
  | Asterisk
  | Slash
  | Eq
  | Gt
  | Ge
  | Le
  | Lt
  | Ne
deriving DecidableEq, Repr

/-- The canonical textual rendering of a reserved symbol
(`impl fmt::Display for Reserved`). -/
def Reserved.str : Reserved → String
  | .LeftParen => "("
  | .RightParen => ")"
  | .Plus => "+"
  | .Minus => "-"
  | .Asterisk => "*"
  | .Slash => "/"
  | .Eq => "=="
  | .Gt => ">"
  | .Ge => ">="
  | .Le => "<="
  | .Lt => "<"
  | .Ne => "!="

/-- `Reserved::len`: the byte length of the symbol's rendering. -/
def Reserved.len (r : Reserved) : Nat := r.str.length

/-- `TokenKind` from `lexer.rs`.  The `chars` suffix stored in the Rust
`Token` is only used for error-offset rendering and carries no information
beyond a position, so a token is modelled by its kind. -/
inductive Tok where
  | res (r : Reserved)
  | num (n : Int)
  | eof
deriving DecidableEq, Repr

/-- The signed-integer literal scanner `Lexer::take_num_str`
(`lexer.rs` lines 192-255), with its accumulated text `acc` (the Rust
`result` string) made explicit.  Returns the Rust function's
`Result<String, (String, char)>` paired with the character cursor left
behind by the call (the Rust method advances `self.chars` in place). -/
def takeNumStrAux (acc : List Char) (cs : List Char) :
    (Except (List Char × Char) (List Char)) × List Char :=
  match cs with
  | [] => (.ok acc, [])
  | c :: rest =>
    if acc = [] ∧ c.isWhitespace then
      -- leading whitespace is skipped
      takeNumStrAux [] rest
    else if c = '+' ∨ c = '-' then
      if acc = [] then
        match rest.head? with
        | some d =>
          if d.isDigit then
            -- `-0` is treated as `0`, so the sign is dropped before a `0`
            takeNumStrAux (if c = '-' ∧ d ≠ '0' then ['-'] else []) rest
          else
            (.error (acc, c), c :: rest)
        | none => (.error (acc, c), c :: rest)
      else
        (.error (acc, c), c :: rest)
    else if c.isDigit then
      if acc = [] ∧ c = '0' then
        match rest with
        | [] => (.ok ['0'], [])
        | d :: _ => (.error (['0'], d), rest)
      else
        takeNumStrAux (acc ++ [c]) rest
    else
      (.error (acc, c), c :: rest)

/-- `Lexer::take_num_str`, started with an empty accumulated string. -/
def takeNumStr (cs : List Char) :
    (Except (List Char × Char) (List Char)) × List Char :=
  takeNumStrAux [] cs

/-- Apply a function to the captured text of a `take_num_str` result (the
`Ok` payload or the first component of the `Err` payload), leaving the
offending character and the remaining cursor untouched. -/
def mapNumStr (f : List Char → List Char) :
    (Except (List Char × Char) (List Char)) × List Char →
    (Except (List Char × Char) (List Char)) × List Char
  | (.ok s, rem) => (.ok (f s), rem)
  | (.error (s, c), rem) => (.error (f s, c), rem)

/-- The string `tokenize` hands to `parse::<isize>`: the captured text of a
`take_num_str` result, whether it succeeded or failed. -/
def numStrOf (x : Except (List Char × Char) (List Char)) : List Char :=
  match x with
  | .ok s => s
  | .error (s, _) => s

/-- The numeric value of a string of decimal digits. -/
def digitsVal (ds : List Char) : Nat :=
  ds.foldl (fun a c => a * 10 + (c.toNat - 48)) 0

/-- The digit-run core of `str::parse`: a nonempty run of ASCII digits. -/
def parseDigitsNat (ds : List Char) : Option Nat :=
  if ds ≠ [] ∧ ds.all Char.isDigit then some (digitsVal ds) else none

/-- `str::parse::<isize>` on a 64-bit target: an optional sign followed by a
nonempty run of ASCII digits, whose signed value must fit in
`[-(2^63), 2^63 - 1]`. -/
def parseIsize (s : List Char) : Option Int :=
  match s with
  | '+' :: ds => (parseDigitsNat ds).bind fun v =>
      if (v : Int) ≤ 2 ^ 63 - 1 then some (v : Int) else none
  | '-' :: ds => (parseDigitsNat ds).bind fun v =>
      if (v : Int) ≤ 2 ^ 63 then some (-(v : Int)) else none
  | ds => (parseDigitsNat ds).bind fun v =>
      if (v : Int) ≤ 2 ^ 63 - 1 then some (v : Int) else none

/-- The single-character reserved symbols recognised by the first symbol arm
of `Lexer::tokenize` (`'(' | ')' | '+' | '-' | '*' | '/'`), via
`Reserved::try_from`. -/
def reservedOfChar (c : Char) : Option Reserved :=
  match c with
  | '(' => some .LeftParen
  | ')' => some .RightParen
  | '+' => some .Plus
  | '-' => some .Minus
  | '*' => some .Asterisk
  | '/' => some .Slash
  | _ => none

/-- `Lexer::start_with`: does the remaining input start with the literal? -/
def startWith (cs : List Char) (s : List Char) : Bool :=
  s.isPrefixOf cs

theorem takeNumStrAux_rem_length (cs : List Char) :
    ∀ acc, (takeNumStrAux acc cs).2.length ≤ cs.length := by
  induction cs with
  | nil => intro acc; simp [takeNumStrAux]
  | cons c rest ih =>
    intro acc
    simp only [takeNumStrAux]
    split
    · exact Nat.le_trans (ih []) (Nat.le_succ _)
    · split
      · split
        · split
          · split
            · exact Nat.le_trans (ih _) (Nat.le_succ _)
            · simp
          · simp
        · simp
      · split
        · split
          · split
            · simp
            · simp
          · exact Nat.le_trans (ih _) (Nat.le_succ _)
        · simp

theorem isWhitespace_eq_false_of_isDigit {c : Char} (h : c.isDigit = true) :
    c.isWhitespace = false := by
  rcases Bool.eq_false_or_eq_true c.isWhitespace with h' | h'
  swap
  · exact h'
  · exfalso
    have hc : c = ' ' ∨ c = '\t' ∨ c = '\r' ∨ c = '\n' := by
      simpa [Char.isWhitespace, or_assoc] using h'
    rcases hc with rfl | rfl | rfl | rfl <;> exact absurd h (by decide)

theorem takeNumStr_rem_lt_of_digit {c : Char} (h : c.isDigit) (rest : List Char) :
    (takeNumStr (c :: rest)).2.length < (c :: rest).length := by
  have hw : ¬ c.isWhitespace := by
    simp [isWhitespace_eq_false_of_isDigit h]
  have hps : ¬ (c = '+' ∨ c = '-') := by
    rintro (rfl | rfl) <;> exact absurd h (by decide)
  simp only [takeNumStr, takeNumStrAux, List.length_cons]
  rw [if_neg (by simp [hw]), if_neg hps, if_pos h]
  split
  · split
    · simp
    · simp
  · exact Nat.lt_succ_of_le (takeNumStrAux_rem_length rest _)

/-- `Lexer::tokenize` (`lexer.rs` lines 112-187), as a function from the
character stream to either a token list (ending in the `EOF` sentinel) or
the error message it returns.  The digit arm feeds whichever string
`take_num_str` produced — the `Ok` payload or the partial `Err` text — to
`parse::<isize>`. -/
def tokenize (cs : List Char) : Except String (List Tok) :=
  match cs with
  | [] => .ok [Tok.eof]
  | c :: rest =>
    if c.isWhitespace then
      tokenize rest
    else if hres : (reservedOfChar c).isSome then
      (tokenize rest).map fun ts => Tok.res ((reservedOfChar c).get hres) :: ts
    else if c = '=' ∨ c = '!' ∨ c = '<' ∨ c = '>' then
      let r : Option Reserved :=
        if startWith (c :: rest) ['=', '='] then some .Eq
        else if startWith (c :: rest) ['!', '='] then some .Ne
        else if startWith (c :: rest) ['<', '='] then some .Le
        else if startWith (c :: rest) ['>', '='] then some .Ge
        else if startWith (c :: rest) ['<'] then some .Lt
        else if startWith (c :: rest) ['>'] then some .Gt
        else none
      match r with
      | some reserved =>
        (tokenize ((c :: rest).drop reserved.len)).map fun ts => Tok.res reserved :: ts
      | none => .error "予期しない文字です"
    else if hd : c.isDigit then
      let scanned := takeNumStr (c :: rest)
      let numStr := match scanned.1 with
        | .ok s => s
        | .error (s, _) => s
      match parseIsize numStr with
      | some n => (tokenize scanned.2).map fun ts => Tok.num n :: ts
      | none => .error "数ではありません"
    else
      .error "トークナイズできません"
termination_by cs.length
decreasing_by
  · simp
  · simp
  · have h1 : 1 ≤ reserved.len := by
      cases reserved <;> decide
    simp only [List.length_drop, List.length_cons]
    omega
  · exact takeNumStr_rem_lt_of_digit hd _

/-! ## Token-cursor primitives (`Lexer::consume`, `expect`, `expect_number`)

The Rust lexer's post-tokenize state is the iterator `self.tokens`; parsing
reads and advances only this cursor, modelled as the `List Tok` suffix of
the token sequence. -/

/-- The cursor action of `Lexer::consume` (`lexer.rs` lines 295-309): if the
next token is the expected reserved symbol, advance one token and return
`true`; otherwise return `false` and leave the cursor unchanged. -/
def consume (expect : Reserved) (ts : List Tok) : Bool × List Tok :=
  match ts with
  | .res r :: rest => if r = expect then (true, rest) else (false, .res r :: rest)
  | other => (false, other)

/-- `Lexer::expect` (`lexer.rs` lines 313-327): like `consume` but failure is
an error carrying the expected symbol's rendering. -/
def expect (expected : Reserved) (ts : List Tok) : Except String (List Tok) :=
  match ts with
  | .res r :: rest =>
    if r = expected then .ok rest else .error (expected.str ++ "ではありません")
  | _ => .error (expected.str ++ "ではありません")

/-- `Lexer::expect_number` (`lexer.rs` lines 331-345). -/
def expectNumber (ts : List Tok) : Except String (Int × List Tok) :=
  match ts with
  | .num n :: rest => .ok (n, rest)
  | _ => .error "数ではありません"

theorem consume_true_lt {e : Reserved} {ts ts1 : List Tok}
    (h : consume e ts = (true, ts1)) : ts1.length < ts.length := by
  cases ts with
  | nil => simp [consume] at h
  | cons t rest =>
    cases t with
    | res r =>
      by_cases hr : r = e
      · simp only [consume, if_pos hr, Prod.mk.injEq, true_and] at h
        subst h
        simp
      · simp [consume, hr] at h
    | num n => simp [consume] at h
    | eof => simp [consume] at h

theorem expect_ok_length {e : Reserved} {ts ts1 : List Tok}
    (h : expect e ts = .ok ts1) : ts1.length ≤ ts.length := by
  cases ts with
  | nil => simp [expect] at h
  | cons t rest =>
    cases t with
    | res r =>
      by_cases hr : r = e
      · simp only [expect, if_pos hr, Except.ok.injEq] at h
        subst h
        simp
      · simp [expect, hr] at h
    | num n => simp [expect] at h
    | eof => simp [expect] at h

theorem expectNumber_ok_length {ts ts1 : List Tok} {n : Int}
    (h : expectNumber ts = .ok (n, ts1)) : ts1.length ≤ ts.length := by
  cases ts with
  | nil => simp [expectNumber] at h
  | cons t rest =>
    cases t with
    | res r => simp [expectNumber] at h
    | num m =>
      simp only [expectNumber, Except.ok.injEq, Prod.mk.injEq] at h
      rw [← h.2]
      simp
    | eof => simp [expectNumber] at h

/-! ## AST (`parser.rs`) -/

/-- `NodeKind` from `parser.rs`: note there is no `Gt` or `Ge` constructor —
reversed comparisons are normalized away by the parser. -/
inductive NodeKind where
  | Add
  | Sub
  | Mul
  | Div
  | Eq
  | Lt
  | Le
  | Ne
  | Num (n : Int)
deriving DecidableEq, Repr

/-- `Node` from `parser.rs`: a kind together with *optional* children, as in
the source (`lhs: Option<Box<Node>>, rhs: Option<Box<Node>>`).  Nothing in
the type itself forces well-formedness. -/
inductive Node where
  | mk (kind : NodeKind) (lhs : Option Node) (rhs : Option Node)
deriving Repr

/-- `Node::get_kind`. -/
def Node.kind : Node → NodeKind
  | .mk k _ _ => k

/-- `Node::get_lhs`. -/
def Node.lhs : Node → Option Node
  | .mk _ l _ => l

/-- `Node::get_rhs`. -/
def Node.rhs : Node → Option Node
  | .mk _ _ r => r

/-! ## Parser (`parser.rs` lines 56-238)

Each grammar rule of `Parser` becomes a function from the token cursor to
`Except String (Node × cursor)`.  The `while`-style accumulation loops of
the source become the `...Loop` functions.  For termination, the parser
works with cursor-length-annotated forms of the consumption primitives
(`consumeTok`, `expectTok`, `expectNumTok`) and the core functions return
the new cursor bundled with a proof that it is no longer than the input
cursor; the `Parser.*` wrappers below erase that bundling and are the
functions the theorems speak about. -/

/-- `Lexer::consume` as used by the parser: `some` of the advanced cursor
when the next token is the expected symbol (together with the
length-decrease evidence), `none` (cursor unchanged) otherwise. -/
def consumeTok (expect : Reserved) (ts : List Tok) :
    Option {ts1 : List Tok // ts1.length < ts.length} :=
  match ts with
  | .res r :: rest => if r = expect then some ⟨rest, Nat.lt_succ_self _⟩ else none
  | _ => none

/-- `Lexer::expect` as used by the parser, with length-decrease evidence. -/
def expectTok (expected : Reserved) (ts : List Tok) :
    Except String {ts1 : List Tok // ts1.length ≤ ts.length} :=
  match ts with
  | .res r :: rest =>
    if r = expected then .ok ⟨rest, Nat.le_succ _⟩
    else .error (expected.str ++ "ではありません")
  | _ => .error (expected.str ++ "ではありません")

/-- `Lexer::expect_number` as used by the parser, with length-decrease
evidence. -/
def expectNumTok (ts : List Tok) :
    Except String {p : Int × List Tok // p.2.length ≤ ts.length} :=
  match ts with
  | .num n :: rest => .ok ⟨(n, rest), Nat.le_succ _⟩
  | _ => .error "数ではありません"

/-- Result of a parser rule on cursor `ts`: an AST node and the remaining
cursor, which never grows. -/
abbrev ParseRes (ts : List Tok) := Except String {p : Node × List Tok // p.2.length ≤ ts.length}

mutual

/-- `Parser::expr`: `expr = equality`. -/
def exprCore (ts : List Tok) : ParseRes ts :=
  equalityCore ts
termination_by 16 * ts.length + 11
decreasing_by omega

/-- `Parser::equality`, entry: parse one `relational`, then loop. -/
def equalityCore (ts : List Tok) : ParseRes ts :=
  match relationalCore ts with
  | .error e => .error e
  | .ok ⟨(n, ts1), h1⟩ =>
    match equalityLoop n ts1 with
    | .error e => .error e
    | .ok ⟨(n2, ts2), h2⟩ => .ok ⟨(n2, ts2), le_trans h2 h1⟩
termination_by 16 * ts.length + 10
decreasing_by
  · omega
  · have hb : ts1.length ≤ ts.length := h1
    omega

/-- The accumulation loop of `Parser::equality`: `(("==" | "!=") relational)*`. -/
def equalityLoop (node : Node) (ts : List Tok) : ParseRes ts :=
  match consumeTok .Eq ts with
  | some ⟨ts1, hlt⟩ =>
    match relationalCore ts1 with
    | .error e => .error e
    | .ok ⟨(rhs, ts2), h2⟩ =>
      match equalityLoop (Node.mk .Eq (some node) (some rhs)) ts2 with
      | .error e => .error e
      | .ok ⟨(n3, ts3), h3⟩ =>
        .ok ⟨(n3, ts3), le_trans h3 (le_trans h2 (le_of_lt hlt))⟩
  | none =>
    match consumeTok .Ne ts with
    | some ⟨ts1, hlt⟩ =>
      match relationalCore ts1 with
      | .error e => .error e
      | .ok ⟨(rhs, ts2), h2⟩ =>
        match equalityLoop (Node.mk .Ne (some node) (some rhs)) ts2 with
        | .error e => .error e
        | .ok ⟨(n3, ts3), h3⟩ =>
          .ok ⟨(n3, ts3), le_trans h3 (le_trans h2 (le_of_lt hlt))⟩
    | none => .ok ⟨(node, ts), le_refl _⟩
termination_by 16 * ts.length + 9
decreasing_by
  · omega
  · have hb : ts2.length ≤ ts1.length := h2
    omega
  · omega
  · have hb : ts2.length ≤ ts1.length := h2
    omega

/-- `Parser::relational`, entry: parse one `add`, then loop. -/
def relationalCore (ts : List Tok) : ParseRes ts :=
  match addCore ts with
  | .error e => .error e
  | .ok ⟨(n, ts1), h1⟩ =>
    match relationalLoop n ts1 with
    | .error e => .error e
    | .ok ⟨(n2, ts2), h2⟩ => .ok ⟨(n2, ts2), le_trans h2 h1⟩
termination_by 16 * ts.length + 8
decreasing_by
  · omega
  · have hb : ts1.length ≤ ts.length := h1
    omega

/-- The accumulation loop of `Parser::relational`.  `>` and `>=` build `Lt`
resp. `Le` nodes with the operands swapped (`is_reverse` in the source). -/
def relationalLoop (node : Node) (ts : List Tok) : ParseRes ts :=
  match consumeTok .Lt ts with
  | some ⟨ts1, hlt⟩ =>
    match addCore ts1 with
    | .error e => .error e
    | .ok ⟨(rhs, ts2), h2⟩ =>
      match relationalLoop (Node.mk .Lt (some node) (some rhs)) ts2 with
      | .error e => .error e
      | .ok ⟨(n3, ts3), h3⟩ =>
        .ok ⟨(n3, ts3), le_trans h3 (le_trans h2 (le_of_lt hlt))⟩
  | none =>
    match consumeTok .Le ts with
    | some ⟨ts1, hlt⟩ =>
      match addCore ts1 with
      | .error e => .error e
      | .ok ⟨(rhs, ts2), h2⟩ =>
        match relationalLoop (Node.mk .Le (some node) (some rhs)) ts2 with
        | .error e => .error e
        | .ok ⟨(n3, ts3), h3⟩ =>
          .ok ⟨(n3, ts3), le_trans h3 (le_trans h2 (le_of_lt hlt))⟩
    | none =>
      match consumeTok .Gt ts with
      | some ⟨ts1, hlt⟩ =>
        match addCore ts1 with
        | .error e => .error e
        | .ok ⟨(rhs, ts2), h2⟩ =>
          match relationalLoop (Node.mk .Lt (some rhs) (some node)) ts2 with
          | .error e => .error e
          | .ok ⟨(n3, ts3), h3⟩ =>
            .ok ⟨(n3, ts3), le_trans h3 (le_trans h2 (le_of_lt hlt))⟩
      | none =>
        match consumeTok .Ge ts with
        | some ⟨ts1, hlt⟩ =>
          match addCore ts1 with
          | .error e => .error e
          | .ok ⟨(rhs, ts2), h2⟩ =>
            match relationalLoop (Node.mk .Le (some rhs) (some node)) ts2 with
            | .error e => .error e
            | .ok ⟨(n3, ts3), h3⟩ =>
              .ok ⟨(n3, ts3), le_trans h3 (le_trans h2 (le_of_lt hlt))⟩
        | none => .ok ⟨(node, ts), le_refl _⟩
termination_by 16 * ts.length + 7
decreasing_by
  · omega
  · have hb : ts2.length ≤ ts1.length := h2
    omega
  · omega
  · have hb : ts2.length ≤ ts1.length := h2
    omega
  · omega
  · have hb : ts2.length ≤ ts1.length := h2
    omega
  · omega
  · have hb : ts2.length ≤ ts1.length := h2
    omega

/-- `Parser::add`, entry: parse one `mul`, then loop. -/
def addCore (ts : List Tok) : ParseRes ts :=
  match mulCore ts with
  | .error e => .error e
  | .ok ⟨(n, ts1), h1⟩ =>
    match addLoop n ts1 with
    | .error e => .error e
    | .ok ⟨(n2, ts2), h2⟩ => .ok ⟨(n2, ts2), le_trans h2 h1⟩
termination_by 16 * ts.length + 6
decreasing_by
  · omega
  · have hb : ts1.length ≤ ts.length := h1
    omega

/-- The accumulation loop of `Parser::add`: `(("+" | "-") mul)*`. -/
def addLoop (node : Node) (ts : List Tok) : ParseRes ts :=
  match consumeTok .Plus ts with
  | some ⟨ts1, hlt⟩ =>
    match mulCore ts1 with
    | .error e => .error e
    | .ok ⟨(rhs, ts2), h2⟩ =>
      match addLoop (Node.mk .Add (some node) (some rhs)) ts2 with
      | .error e => .error e
      | .ok ⟨(n3, ts3), h3⟩ =>
        .ok ⟨(n3, ts3), le_trans h3 (le_trans h2 (le_of_lt hlt))⟩
  | none =>
    match consumeTok .Minus ts with
    | some ⟨ts1, hlt⟩ =>
      match mulCore ts1 with
      | .error e => .error e
      | .ok ⟨(rhs, ts2), h2⟩ =>
        match addLoop (Node.mk .Sub (some node) (some rhs)) ts2 with
        | .error e => .error e
        | .ok ⟨(n3, ts3), h3⟩ =>
          .ok ⟨(n3, ts3), le_trans h3 (le_trans h2 (le_of_lt hlt))⟩
    | none => .ok ⟨(node, ts), le_refl _⟩
termination_by 16 * ts.length + 5
decreasing_by
  · omega
  · have hb : ts2.length ≤ ts1.length := h2
    omega
  · omega
  · have hb : ts2.length ≤ ts1.length := h2
    omega

/-- `Parser::mul`, entry: parse one `unary`, then loop. -/
def mulCore (ts : List Tok) : ParseRes ts :=
  match unaryCore ts with
  | .error e => .error e
  | .ok ⟨(n, ts1), h1⟩ =>
    match mulLoop n ts1 with
    | .error e => .error e
    | .ok ⟨(n2, ts2), h2⟩ => .ok ⟨(n2, ts2), le_trans h2 h1⟩
termination_by 16 * ts.length + 4
decreasing_by
  · omega
  · have hb : ts1.length ≤ ts.length := h1
    omega

/-- The accumulation loop of `Parser::mul`: `(("*" | "/") unary)*`. -/
def mulLoop (node : Node) (ts : List Tok) : ParseRes ts :=
  match consumeTok .Asterisk ts with
  | some ⟨ts1, hlt⟩ =>
    match unaryCore ts1 with
    | .error e => .error e
    | .ok ⟨(rhs, ts2), h2⟩ =>
      match mulLoop (Node.mk .Mul (some node) (some rhs)) ts2 with
      | .error e => .error e
      | .ok ⟨(n3, ts3), h3⟩ =>
        .ok ⟨(n3, ts3), le_trans h3 (le_trans h2 (le_of_lt hlt))⟩
  | none =>
    match consumeTok .Slash ts with
    | some ⟨ts1, hlt⟩ =>
      match unaryCore ts1 with
      | .error e => .error e
      | .ok ⟨(rhs, ts2), h2⟩ =>
        match mulLoop (Node.mk .Div (some node) (some rhs)) ts2 with
        | .error e => .error e
        | .ok ⟨(n3, ts3), h3⟩ =>
          .ok ⟨(n3, ts3), le_trans h3 (le_trans h2 (le_of_lt hlt))⟩
    | none => .ok ⟨(node, ts), le_refl _⟩
termination_by 16 * ts.length + 3
decreasing_by
  · omega
  · have hb : ts2.length ≤ ts1.length := h2
    omega
  · omega
  · have hb : ts2.length ≤ ts1.length := h2
    omega

/-- `Parser::unary`: a leading `+` is dropped; a leading `-` rewrites `-x`
as `Sub(Num 0, x)`; otherwise fall through to `primary`. -/
def unaryCore (ts : List Tok) : ParseRes ts :=
  match consumeTok .Plus ts with
  | some ⟨ts1, hlt⟩ =>
    match primaryCore ts1 with
    | .error e => .error e
    | .ok ⟨(n, ts2), h2⟩ => .ok ⟨(n, ts2), le_trans h2 (le_of_lt hlt)⟩
  | none =>
    match consumeTok .Minus ts with
    | some ⟨ts1, hlt⟩ =>
      match primaryCore ts1 with
      | .error e => .error e
      | .ok ⟨(n, ts2), h2⟩ =>
        .ok ⟨(Node.mk .Sub (some (Node.mk (.Num 0) none none)) (some n), ts2),
          le_trans h2 (le_of_lt hlt)⟩
    | none => primaryCore ts
termination_by 16 * ts.length + 2
decreasing_by
  · omega
  · omega
  · omega

/-- `Parser::primary`: a parenthesized `expr`, or a number literal. -/
def primaryCore (ts : List Tok) : ParseRes ts :=
  match consumeTok .LeftParen ts with
  | some ⟨ts1, hlt⟩ =>
    match exprCore ts1 with
    | .error e => .error e
    | .ok ⟨(n, ts2), h2⟩ =>
      match expectTok .RightParen ts2 with
      | .error e => .error e
      | .ok ⟨ts3, h3⟩ =>
        .ok ⟨(n, ts3), le_trans h3 (le_trans h2 (le_of_lt hlt))⟩
  | none =>
    match expectNumTok ts with
    | .ok ⟨(num, ts1), h1⟩ => .ok ⟨(Node.mk (.Num num) none none, ts1), h1⟩
    | .error _ => .error "予期しないトークンです"
termination_by 16 * ts.length + 1
decreasing_by omega

end

namespace Parser

/-- `Parser::expr` with the termination bookkeeping erased. -/
def expr (ts : List Tok) : Except String (Node × List Tok) := (exprCore ts).map Subtype.val

/-- `Parser::equality` with the termination bookkeeping erased. -/
def equality (ts : List Tok) : Except String (Node × List Tok) := (equalityCore ts).map Subtype.val

/-- `Parser::relational` with the termination bookkeeping erased. -/
def relational (ts : List Tok) : Except String (Node × List Tok) := (relationalCore ts).map Subtype.val

/-- `Parser::add` with the termination bookkeeping erased. -/
def add (ts : List Tok) : Except String (Node × List Tok) := (addCore ts).map Subtype.val

/-- `Parser::mul` with the termination bookkeeping erased. -/
def mul (ts : List Tok) : Except String (Node × List Tok) := (mulCore ts).map Subtype.val

/-- `Parser::unary` with the termination bookkeeping erased. -/
def unary (ts : List Tok) : Except String (Node × List Tok) := (unaryCore ts).map Subtype.val

/-- `Parser::primary` with the termination bookkeeping erased. -/
def primary (ts : List Tok) : Except String (Node × List Tok) := (primaryCore ts).map Subtype.val

end Parser

/-! ## Code generator (`codegen.rs`)

Each constructor of `Instr` stands for one assembly line emitted by a
`println!` in `gen`; `Instr.render` recovers the exact text. -/

inductive Instr where
  | pushImm (n : Int)
  | popRdi
  | popRax
  | addRaxRdi
  | subRaxRdi
  | imulRaxRdi
  | cqo
  | idivRdi
  | cmpRaxRdi
  | seteAl
  | setneAl
  | setlAl
  | setleAl
  | movzbRaxAl
  | pushRax
deriving DecidableEq, Repr

/-- The text of an emitted instruction line. -/
def Instr.render : Instr → String
  | .pushImm n => "  push " ++ toString n
  | .popRdi => "  pop rdi"
  | .popRax => "  pop rax"
  | .addRaxRdi => "  add rax, rdi"
  | .subRaxRdi => "  sub rax, rdi"
  | .imulRaxRdi => "  imul rax, rdi"
  | .cqo => "  cqo"
  | .idivRdi => "  idiv rdi"
  | .cmpRaxRdi => "  cmp rax, rdi"
  | .seteAl => "  sete al"
  | .setneAl => "  setne al"
  | .setlAl => "  setl al"
  | .setleAl => "  setle al"
  | .movzbRaxAl => "  movzb rax, al"
  | .pushRax => "  push rax"

/-- The operator-specific lines of the `match node_kind` in `gen`
(`codegen.rs` lines 22-59).  The wildcard arm — reachable only for a
`Num` kind, which the early return has already excluded — is the
`panic!("予期しないノードです")` branch, modelled as `none`. -/
def genOp (k : NodeKind) : Option (List Instr) :=
  match k with
  | .Add => some [.addRaxRdi]
  | .Sub => some [.subRaxRdi]
  | .Mul => some [.imulRaxRdi]
  | .Div => some [.cqo, .idivRdi]
  | .Eq => some [.cmpRaxRdi, .seteAl, .movzbRaxAl]
  | .Ne => some [.cmpRaxRdi, .setneAl, .movzbRaxAl]
  | .Lt => some [.cmpRaxRdi, .setlAl, .movzbRaxAl]
  | .Le => some [.cmpRaxRdi, .setleAl, .movzbRaxAl]
  | .Num _ => none

/-- `gen` (`codegen.rs` lines 3-62): post-order emission.  A `Num` node
pushes its literal and returns; otherwise the children (when present) are
generated left then right, the two operands popped, the operator lines
emitted, and the result pushed.  `none` models `panic!`. -/
def gen (node : Node) : Option (List Instr) :=
  match node with
  | .mk (.Num n) _ _ => some [.pushImm n]
  | .mk k lhs rhs =>
    let lc : Option (List Instr) := match lhs with
      | some l => gen l
      | none => some []
    let rc : Option (List Instr) := match rhs with
      | some r => gen r
      | none => some []
    match lc, rc, genOp k with
    | some lcode, some rcode, some opcode =>
      some (lcode ++ rcode ++ [.popRdi, .popRax] ++ opcode ++ [.pushRax])
    | _, _, _ => none

/-- The complete assembly listing printed by `main`: directives, label,
generated body, and the `pop rax` / `ret` epilogue. -/
def asmListing (body : List Instr) : List String :=
  [".intel_syntax noprefix", ".globl main", "main:"]
    ++ body.map Instr.render
    ++ ["  pop rax", "  ret"]

/-! ## Stack-machine semantics of the emitted instructions

The evaluation model the specification assigns to the instruction lines:
binary operators pop the right operand (`pop rdi`) then the left
(`pop rax`), compute into `rax`, and push the result; comparisons set a
0/1 flag into `al` which `movzb` widens into `rax`; `cqo`/`idiv`
implement two's-complement truncating division. -/

structure MState where
  stack : List Int
  rax : Int
  rdi : Int
  rdx : Int
  al : Int
  lastCmp : Option (Int × Int)
deriving DecidableEq, Repr

def initState : MState := ⟨[], 0, 0, 0, 0, none⟩

def stepInstr (s : MState) : Instr → Option MState
  | .pushImm n => some { s with stack := n :: s.stack }
  | .popRdi =>
    match s.stack with
    | v :: st => some { s with rdi := v, stack := st }
    | [] => none
  | .popRax =>
    match s.stack with
    | v :: st => some { s with rax := v, stack := st }
    | [] => none
  | .addRaxRdi => some { s with rax := s.rax + s.rdi }
  | .subRaxRdi => some { s with rax := s.rax - s.rdi }
  | .imulRaxRdi => some { s with rax := s.rax * s.rdi }
  | .cqo => some { s with rdx := if s.rax < 0 then -1 else 0 }
  | .idivRdi =>
    -- with `rdx` holding the sign extension set up by `cqo`, the quotient
    -- is the truncated-toward-zero division of `rax` by `rdi`
    if s.rdi = 0 then none else some { s with rax := Int.tdiv s.rax s.rdi }
  | .cmpRaxRdi => some { s with lastCmp := some (s.rax, s.rdi) }
  | .seteAl => s.lastCmp.map fun p => { s with al := if p.1 = p.2 then 1 else 0 }
  | .setneAl => s.lastCmp.map fun p => { s with al := if p.1 ≠ p.2 then 1 else 0 }
  | .setlAl => s.lastCmp.map fun p => { s with al := if p.1 < p.2 then 1 else 0 }
  | .setleAl => s.lastCmp.map fun p => { s with al := if p.1 ≤ p.2 then 1 else 0 }
  | .movzbRaxAl => some { s with rax := s.al }
  | .pushRax => some { s with stack := s.rax :: s.stack }

def runInstrs : MState → List Instr → Option MState
  | s, [] => some s
  | s, i :: rest => (stepInstr s i).bind fun s2 => runInstrs s2 rest

/-- Run the generated body from the initial state, then the epilogue
`pop rax; ret`: the program's return value is the value popped into `rax`,
i.e. the top of the final stack. -/
def runProgram (body : List Instr) : Option Int :=
  (runInstrs initState body).bind fun s =>
    match s.stack with
    | v :: _ => some v
    | [] => none

/-! ## The full pipeline as driven by `main` -/

/-- The pipeline of `main`: tokenize, parse one `expr` (any tokens left
over after the expression are ignored, as in `main`), generate.  A `gen`
panic becomes the error `"予期しないノードです"`. -/
def compile (cs : List Char) : Except String (List Instr) :=
  match tokenize cs with
  | .error e => .error e
  | .ok toks =>
    match Parser.expr toks with
    | .error e => .error e
    | .ok (node, _) =>
      match gen node with
      | some body => .ok body
      | none => .error "予期しないノードです"

/-- The value computed by the full pipeline: the stack-machine result of the
generated program, or `none` when compilation fails (or the program gets
stuck). -/
def pipelineValue (cs : List Char) : Option Int :=
  match compile cs with
  | .ok body => runProgram body
  | .error _ => none

/-- The lexer state (`struct Lexer`): the original input, the character
cursor, and the token cursor.  After `tokenize`, parsing reads and advances
only `tokens`. -/
structure Lexer where
  input : List Char
  chars : List Char
  tokens : List Tok
deriving DecidableEq, Repr

/-- `Lexer::consume` acting on the whole lexer state: its only effect is the
cursor action `consume` on `self.tokens`. -/
def Lexer.consume (l : Lexer) (e : Reserved) : Bool × Lexer :=
  let (b, ts) := CCompiler.consume e l.tokens
  (b, { l with tokens := ts })

/-- The well-formedness invariant of claim C9: a node is a leaf iff its kind
is a number literal; every operator node has both children, recursively
well-formed. -/
def wf (node : Node) : Bool :=
  match node with
  | .mk (.Num _) none none => true
  | .mk (.Num _) _ _ => false
  | .mk _ (some l) (some r) => wf l && wf r
  | .mk _ _ _ => false

/-! ## Lemma toolkit -/

theorem takeNumStrAux_prepend (cs : List Char) :
    ∀ (pre acc : List Char), acc ≠ [] →
      takeNumStrAux (pre ++ acc) cs = mapNumStr (fun s => pre ++ s) (takeNumStrAux acc cs) := by
  induction cs with
  | nil =>
    intro pre acc h
    simp [takeNumStrAux, mapNumStr]
  | cons c rest ih =>
    intro pre acc h
    have hpa : pre ++ acc ≠ [] := by simp [h]
    have hA1 : ¬(pre ++ acc = [] ∧ c.isWhitespace = true) := fun hx => hpa hx.1
    have hA2 : ¬(acc = [] ∧ c.isWhitespace = true) := fun hx => h hx.1
    simp only [takeNumStrAux]
    rw [if_neg hA1, if_neg hA2]
    by_cases hB : c = '+' ∨ c = '-'
    · rw [if_pos hB, if_pos hB, if_neg hpa, if_neg h]
      simp [mapNumStr]
    · rw [if_neg hB, if_neg hB]
      by_cases hD : c.isDigit = true
      · have hE1 : ¬(pre ++ acc = [] ∧ c = '0') := fun hx => hpa hx.1
        have hE2 : ¬(acc = [] ∧ c = '0') := fun hx => h hx.1
        rw [if_pos hD, if_pos hD, if_neg hE1, if_neg hE2]
        have hassoc : pre ++ acc ++ [c] = pre ++ (acc ++ [c]) := by simp
        rw [hassoc]
        exact ih pre (acc ++ [c]) (by simp)
      · rw [if_neg hD, if_neg hD]
        simp [mapNumStr]

theorem isDigit_not_sign {d : Char} (hd : d.isDigit = true) : ¬(d = '+' ∨ d = '-') := by
  rintro (rfl | rfl) <;> exact absurd hd (by decide)

/-- Scanning a run of digits with a nonempty accumulator: the digits are
appended to the accumulator, and scanning stops (with an error pairing the
accumulated text and the offending character) at the first non-digit. -/
theorem takeNumStrAux_digits (ds : List Char) :
    ∀ (acc rest : List Char), acc ≠ [] → ds.all Char.isDigit = true →
      (∀ c, rest.head? = some c → c.isDigit = false) →
      takeNumStrAux acc (ds ++ rest) =
        match rest with
        | [] => (.ok (acc ++ ds), [])
        | c :: _ => (.error (acc ++ ds, c), rest) := by
  induction ds with
  | nil =>
    intro acc rest hacc _ hrest
    cases rest with
    | nil => simp [takeNumStrAux]
    | cons c rest2 =>
      have hc : c.isDigit = false := hrest c rfl
      simp only [List.nil_append, takeNumStrAux]
      rw [if_neg (fun hx => hacc hx.1)]
      by_cases hpm : c = '+' ∨ c = '-'
      · rw [if_pos hpm, if_neg hacc]
        simp
      · rw [if_neg hpm, if_neg (by simp [hc])]
        simp
  | cons d ds2 ih =>
    intro acc rest hacc hall hrest
    have hd : d.isDigit = true := by
      simp only [List.all_cons, Bool.and_eq_true] at hall
      exact hall.1
    have hall2 : ds2.all Char.isDigit = true := by
      simp only [List.all_cons, Bool.and_eq_true] at hall
      exact hall.2
    have hdw : d.isWhitespace = false := isWhitespace_eq_false_of_isDigit hd
    simp only [List.cons_append, takeNumStrAux]
    rw [if_neg (by simp [hdw]), if_neg (isDigit_not_sign hd), if_pos hd,
      if_neg (fun hx => hacc hx.1)]
    simp only [List.append_eq]
    rw [ih (acc ++ [d]) rest (by simp) hall2 hrest]
    cases rest <;> simp

/-- `take_num_str` on a literal headed by a nonzero digit: the whole digit
run is captured, and the cursor is left at the first non-digit. -/
theorem takeNumStr_digits {d : Char} (ds rest : List Char)
    (hd : d.isDigit = true) (hd0 : d ≠ '0') (hds : ds.all Char.isDigit = true)
    (hrest : ∀ c, rest.head? = some c → c.isDigit = false) :
    takeNumStr (d :: ds ++ rest) =
      match rest with
      | [] => (.ok (d :: ds), [])
      | c :: _ => (.error (d :: ds, c), rest) := by
  have hdw : d.isWhitespace = false := isWhitespace_eq_false_of_isDigit hd
  simp only [takeNumStr, List.cons_append, takeNumStrAux]
  rw [if_neg (by simp [hdw]), if_neg (isDigit_not_sign hd), if_pos hd,
    if_neg (by simp [hd0])]
  simp only [List.append_eq, List.nil_append]
  rw [takeNumStrAux_digits ds [d] rest (by simp) hds hrest]
  cases rest <;> simp

/-- `parse::<isize>` on a nonempty run of digits: the numeric value when it
fits in an `isize`, `none` (overflow) otherwise. -/
theorem parseIsize_digits {d : Char} (ds : List Char)
    (hd : d.isDigit = true) (hds : ds.all Char.isDigit = true) :
    parseIsize (d :: ds) =
      if (digitsVal (d :: ds) : Int) ≤ 2 ^ 63 - 1 then
        some ((digitsVal (d :: ds) : Int)) else none := by
  have hall : (d :: ds).all Char.isDigit = true := by
    simp [List.all_cons, hd, hds]
  have hcore : parseDigitsNat (d :: ds) = some (digitsVal (d :: ds)) := by
    simp [parseDigitsNat, hall]
  rw [parseIsize.eq_def]
  split
  · rename_i ds1 heq
    exfalso
    have : d = '+' := (List.cons.injEq _ _ _ _).mp heq |>.1
    subst this
    exact absurd hd (by decide)
  · rename_i ds1 heq
    exfalso
    have : d = '-' := (List.cons.injEq _ _ _ _).mp heq |>.1
    subst this
    exact absurd hd (by decide)
  · rw [hcore]
    simp

theorem reservedOfChar_digit {d : Char} (hd : d.isDigit = true) :
    reservedOfChar d = none := by
  rw [reservedOfChar.eq_def]
  split
  all_goals first
    | rfl
    | exact absurd hd (by decide)

theorem isDigit_not_special {d : Char} (hd : d.isDigit = true) :
    ¬(d = '=' ∨ d = '!' ∨ d = '<' ∨ d = '>') := by
  rintro (rfl | rfl | rfl | rfl) <;> exact absurd hd (by decide)

/-- The captured text of the scanner only grows by digits once it is
nonempty and made of digits. -/
theorem takeNumStrAux_payload_digits (cs : List Char) :
    ∀ acc, acc ≠ [] → acc.all Char.isDigit = true →
      (numStrOf (takeNumStrAux acc cs).1).all Char.isDigit = true := by
  induction cs with
  | nil =>
    intro acc hacc hdig
    simpa [takeNumStrAux, numStrOf] using hdig
  | cons c rest ih =>
    intro acc hacc hdig
    simp only [takeNumStrAux]
    rw [if_neg (fun hx => hacc hx.1)]
    by_cases hpm : c = '+' ∨ c = '-'
    · rw [if_pos hpm, if_neg hacc]
      simpa [numStrOf] using hdig
    · rw [if_neg hpm]
      by_cases hcd : c.isDigit = true
      · rw [if_pos hcd, if_neg (fun hx => hacc hx.1)]
        exact ih (acc ++ [c]) (by simp) (by simp [List.all_append, hdig, hcd])
      · rw [if_neg hcd]
        simpa [numStrOf] using hdig

/-- On an input whose first character is a digit (the only situation in
which `tokenize` invokes the scanner), the captured text — successful or
partial — consists solely of digits; in particular it carries no sign. -/
theorem takeNumStr_payload_digits {d : Char} (hd : d.isDigit = true) (rest : List Char) :
    (numStrOf (takeNumStr (d :: rest)).1).all Char.isDigit = true := by
  have hdw : d.isWhitespace = false := isWhitespace_eq_false_of_isDigit hd
  simp only [takeNumStr, takeNumStrAux]
  rw [if_neg (by simp [hdw]), if_neg (isDigit_not_sign hd), if_pos hd]
  by_cases hd0 : d = '0'
  · rw [if_pos (by simp [hd0])]
    cases rest <;> rfl
  · rw [if_neg (by simp [hd0])]
    exact takeNumStrAux_payload_digits rest [d] (by simp) (by simp [hd])

/-- `parse::<isize>` of an unsigned digit string never yields a negative
value. -/
theorem parseIsize_nonneg {s : List Char} (hs : s.all Char.isDigit = true)
    {n : Int} (h : parseIsize s = some n) : 0 ≤ n := by
  rw [parseIsize.eq_def] at h
  split at h
  · rw [List.all_cons, Bool.and_eq_true] at hs
    exact absurd hs.1 (by decide)
  · rw [List.all_cons, Bool.and_eq_true] at hs
    exact absurd hs.1 (by decide)
  · rcases Option.bind_eq_some.mp h with ⟨v, hv, hf⟩
    split at hf
    · rw [Option.some.injEq] at hf
      subst hf
      exact Int.ofNat_nonneg v
    · exact absurd hf (by simp)

theorem reserved_len_pos (r : Reserved) : 1 ≤ r.len := by
  cases r <;> decide

theorem drop_reserved_len_le {k : Nat} {c : Char} {rest : List Char}
    (hk : rest.length + 1 ≤ k + 1) (r : Reserved) :
    (List.drop r.len (c :: rest)).length ≤ k := by
  have := reserved_len_pos r
  simp only [List.length_drop, List.length_cons]
  omega

/-- Every `Number` token produced by a successful `tokenize` run is
nonnegative: the scanner is reached only on a digit, so its sign-capturing
branch never fires during tokenization. -/
theorem tokenize_nonneg :
    ∀ (k : Nat) (cs : List Char), cs.length ≤ k →
      ∀ toks, tokenize cs = .ok toks → ∀ n : Int, Tok.num n ∈ toks → 0 ≤ n := by
  intro k
  induction k with
  | zero =>
    intro cs hk toks htok n hmem
    have hnil : cs = [] := List.length_eq_zero.mp (Nat.le_zero.mp hk)
    subst hnil
    rw [tokenize.eq_def] at htok
    simp only [Except.ok.injEq] at htok
    subst htok
    simp at hmem
  | succ k ih =>
    intro cs hk toks htok n hmem
    rw [tokenize.eq_def] at htok
    split at htok
    · simp only [Except.ok.injEq] at htok
      subst htok
      simp at hmem
    · rename_i c rest
      simp only [List.length_cons] at hk
      split at htok
      · exact ih rest (by omega) toks htok n hmem
      · split at htok
        · -- single-character reserved symbol
          cases h2 : tokenize rest with
          | error e => rw [h2] at htok; simp [Except.map] at htok
          | ok ts2 =>
            rw [h2] at htok
            simp only [Except.map, Except.ok.injEq] at htok
            subst htok
            rcases List.mem_cons.mp hmem with hx | hx
            · exact absurd hx (by simp)
            · exact ih rest (by omega) ts2 h2 n hx
        · split at htok
          · -- two-character comparison operators: the prefix-test chain
            split at htok
            all_goals simp only [Except.map] at htok
            all_goals repeat' split at htok
            all_goals first
              | exact Except.noConfusion htok
              | (rename_i ts2 h2
                 simp only [Except.ok.injEq] at htok
                 subst htok
                 rcases List.mem_cons.mp hmem with hx | hx
                 · exact absurd hx (by simp)
                 · exact ih _ (drop_reserved_len_le hk _) ts2 h2 n hx)
          · split at htok
            · -- numeric literal
              simp only [Except.map] at htok
              split at htok
              · rename_i nn heqn
                split at htok
                · exact Except.noConfusion htok
                · rename_i ts2 h2
                  simp only [Except.ok.injEq] at htok
                  subst htok
                  rcases List.mem_cons.mp hmem with hx | hx
                  · have hpay : parseIsize (numStrOf (takeNumStr (c :: rest)).1) = some nn :=
                      heqn
                    have hdig : c.isDigit = true := by assumption
                    have hnn := parseIsize_nonneg (takeNumStr_payload_digits hdig rest) hpay
                    simp only [Tok.num.injEq] at hx
                    subst hx
                    exact hnn
                  · have hdig : c.isDigit = true := by assumption
                    have hlen : ((takeNumStr (c :: rest)).2).length ≤ k := by
                      have := takeNumStr_rem_lt_of_digit hdig rest
                      simp only [List.length_cons] at this
                      omega
                    exact ih _ hlen ts2 h2 n hx
              · exact Except.noConfusion htok
            · exact Except.noConfusion htok

/-- `tokenize` on an input headed by a literal (nonzero leading digit) whose
value fits in an `isize`: the digit run becomes one `Number` token and
tokenization continues on the rest. -/
theorem tokenize_literal_head_fit {d : Char} (ds rest : List Char)
    (hd : d.isDigit = true) (hd0 : d ≠ '0') (hds : ds.all Char.isDigit = true)
    (hrest : ∀ c, rest.head? = some c → c.isDigit = false)
    (hfit : (digitsVal (d :: ds) : Int) ≤ 2 ^ 63 - 1) :
    tokenize (d :: ds ++ rest) =
      (tokenize rest).map (fun ts => Tok.num (digitsVal (d :: ds)) :: ts) := by
  have hdw : d.isWhitespace = false := isWhitespace_eq_false_of_isDigit hd
  have hres := reservedOfChar_digit hd
  have hspec := isDigit_not_special hd
  have hparse : parseIsize (d :: ds) = some ((digitsVal (d :: ds) : Int)) := by
    rw [parseIsize_digits ds hd hds, if_pos hfit]
  rw [tokenize.eq_def]
  cases rest with
  | nil =>
    have hscan : takeNumStr (d :: ds) = (.ok (d :: ds), []) := by
      have := takeNumStr_digits ds [] hd hd0 hds (by intro c h; simp at h)
      simpa using this
    simp [hdw, hres, hspec, hd, hscan, hparse]
  | cons c rest2 =>
    have hscan : takeNumStr (d :: ds ++ c :: rest2) = (.error (d :: ds, c), c :: rest2) :=
      takeNumStr_digits ds (c :: rest2) hd hd0 hds hrest
    simp only [List.cons_append] at hscan
    simp [hdw, hres, hspec, hd, hscan, hparse]

/-- `tokenize` on an input headed by a literal (nonzero leading digit) whose
value overflows an `isize`: tokenization fails with the non-positional
message `"数ではありません"`. -/
theorem tokenize_literal_head_overflow {d : Char} (ds rest : List Char)
    (hd : d.isDigit = true) (hd0 : d ≠ '0') (hds : ds.all Char.isDigit = true)
    (hrest : ∀ c, rest.head? = some c → c.isDigit = false)
    (hbig : 2 ^ 63 - 1 < (digitsVal (d :: ds) : Int)) :
    tokenize (d :: ds ++ rest) = .error "数ではありません" := by
  have hdw : d.isWhitespace = false := isWhitespace_eq_false_of_isDigit hd
  have hres := reservedOfChar_digit hd
  have hspec := isDigit_not_special hd
  have hparse : parseIsize (d :: ds) = none := by
    rw [parseIsize_digits ds hd hds, if_neg (by omega)]
  rw [tokenize.eq_def]
  cases rest with
  | nil =>
    have hscan : takeNumStr (d :: ds) = (.ok (d :: ds), []) := by
      have := takeNumStr_digits ds [] hd hd0 hds (by intro c h; simp at h)
      simpa using this
    simp [hdw, hres, hspec, hd, hscan, hparse]
  | cons c rest2 =>
    have hscan : takeNumStr (d :: ds ++ c :: rest2) = (.error (d :: ds, c), c :: rest2) :=
      takeNumStr_digits ds (c :: rest2) hd hd0 hds hrest
    simp only [List.cons_append] at hscan
    simp [hdw, hres, hspec, hd, hscan, hparse]

/-- Erasing the termination bookkeeping preserves results: a wrapper success
comes from a core success with the same payload. -/
theorem core_of_map_val {ts : List Tok} {x : ParseRes ts} {v : Node × List Tok}
    (h : x.map Subtype.val = .ok v) :
    ∃ hle : v.2.length ≤ ts.length, x = .ok ⟨v, hle⟩ := by
  cases x with
  | error e => simp [Except.map] at h
  | ok p =>
    obtain ⟨pv, hp⟩ := p
    simp only [Except.map, Except.ok.injEq] at h
    subst h
    exact ⟨hp, rfl⟩

set_option maxHeartbeats 1000000 in
/-- Every node returned by any core parser rule satisfies the leaf/children
well-formedness invariant `wf` (the loops additionally preserve it from
their accumulated node). -/
theorem parserWfAll :
    (∀ ts (n : Node) (rest : List Tok) (h : rest.length ≤ ts.length),
        exprCore ts = .ok ⟨(n, rest), h⟩ → wf n = true) ∧
    (∀ ts (n : Node) (rest : List Tok) (h : rest.length ≤ ts.length),
        equalityCore ts = .ok ⟨(n, rest), h⟩ → wf n = true) ∧
    (∀ (node : Node) ts, wf node = true → ∀ (n : Node) (rest : List Tok) (h : rest.length ≤ ts.length),
        equalityLoop node ts = .ok ⟨(n, rest), h⟩ → wf n = true) ∧
    (∀ ts (n : Node) (rest : List Tok) (h : rest.length ≤ ts.length),
        relationalCore ts = .ok ⟨(n, rest), h⟩ → wf n = true) ∧
    (∀ (node : Node) ts, wf node = true → ∀ (n : Node) (rest : List Tok) (h : rest.length ≤ ts.length),
        relationalLoop node ts = .ok ⟨(n, rest), h⟩ → wf n = true) ∧
    (∀ ts (n : Node) (rest : List Tok) (h : rest.length ≤ ts.length),
        addCore ts = .ok ⟨(n, rest), h⟩ → wf n = true) ∧
    (∀ (node : Node) ts, wf node = true → ∀ (n : Node) (rest : List Tok) (h : rest.length ≤ ts.length),
        addLoop node ts = .ok ⟨(n, rest), h⟩ → wf n = true) ∧
    (∀ ts (n : Node) (rest : List Tok) (h : rest.length ≤ ts.length),
        mulCore ts = .ok ⟨(n, rest), h⟩ → wf n = true) ∧
    (∀ (node : Node) ts, wf node = true → ∀ (n : Node) (rest : List Tok) (h : rest.length ≤ ts.length),
        mulLoop node ts = .ok ⟨(n, rest), h⟩ → wf n = true) ∧
    (∀ ts (n : Node) (rest : List Tok) (h : rest.length ≤ ts.length),
        unaryCore ts = .ok ⟨(n, rest), h⟩ → wf n = true) ∧
    (∀ ts (n : Node) (rest : List Tok) (h : rest.length ≤ ts.length),
        primaryCore ts = .ok ⟨(n, rest), h⟩ → wf n = true) := by
  apply exprCore.mutual_induct
  all_goals intros
  all_goals rename_i hfinal
  all_goals
    first
      | rw [exprCore.eq_def] at hfinal
      | rw [equalityCore.eq_def] at hfinal
      | rw [equalityLoop.eq_def] at hfinal
      | rw [relationalCore.eq_def] at hfinal
      | rw [relationalLoop.eq_def] at hfinal
      | rw [addCore.eq_def] at hfinal
      | rw [addLoop.eq_def] at hfinal
      | rw [mulCore.eq_def] at hfinal
      | rw [mulLoop.eq_def] at hfinal
      | rw [unaryCore.eq_def] at hfinal
      | rw [primaryCore.eq_def] at hfinal
  all_goals simp_all only [wf, Bool.and_eq_true, Except.ok.injEq, Except.error.injEq,
    Subtype.mk.injEq, Prod.mk.injEq, and_true, true_and, ne_eq]
  all_goals try exact Except.noConfusion hfinal
  all_goals
    first
      | (rename_i ih2 ih1 hwf
         obtain ⟨rfl, rfl⟩ := hfinal
         exact ih1 (ih2 _ _ (by assumption) ⟨rfl, rfl⟩) _ _ (by assumption) ⟨rfl, rfl⟩)
      | (rename_i ih2 ih1
         obtain ⟨rfl, rfl⟩ := hfinal
         exact ih1 (ih2 _ _ (by assumption) ⟨rfl, rfl⟩) _ _ (by assumption) ⟨rfl, rfl⟩)
      | (rename_i ih
         obtain ⟨rfl, rfl⟩ := hfinal
         exact ih _ _ (by assumption) ⟨rfl, rfl⟩)
      | (rename_i ih
         exact ih _ _ (by assumption) ⟨rfl, rfl⟩)
      | (rename_i ih
         obtain ⟨hn, rfl⟩ := hfinal
         subst hn
         simp only [wf, Bool.true_and]
         exact ih _ _ (by assumption) ⟨rfl, rfl⟩)
      | (obtain ⟨rfl, rfl⟩ := hfinal
         simp [wf])

/-- `gen` never takes its `panic!` branch: bounded-size induction step. -/
theorem gen_isSome_aux : ∀ (k : Nat) (m : Node), sizeOf m ≤ k → (gen m).isSome = true := by
  intro k
  induction k with
  | zero =>
    intro m hm
    cases m with
    | mk kk l r =>
      simp only [Node.mk.sizeOf_spec] at hm
      omega
  | succ k ih =>
    intro m hm
    cases m with
    | mk kk l r =>
      simp only [Node.mk.sizeOf_spec] at hm
      rcases l with _ | ll <;> rcases r with _ | rr
      · cases kk <;> simp [gen, genOp]
      · obtain ⟨rc, hrc⟩ := Option.isSome_iff_exists.mp
          (ih rr (by simp only [Option.some.sizeOf_spec] at hm; omega))
        cases kk <;> simp [gen, genOp, hrc]
      · obtain ⟨lc, hlc⟩ := Option.isSome_iff_exists.mp
          (ih ll (by simp only [Option.some.sizeOf_spec] at hm; omega))
        cases kk <;> simp [gen, genOp, hlc]
      · obtain ⟨lc, hlc⟩ := Option.isSome_iff_exists.mp
          (ih ll (by simp only [Option.some.sizeOf_spec] at hm; omega))
        obtain ⟨rc, hrc⟩ := Option.isSome_iff_exists.mp
          (ih rr (by simp only [Option.some.sizeOf_spec] at hm; omega))
        cases kk <;> simp [gen, genOp, hlc, hrc]

/-- `gen` never panics: the unhandled-kind arm is unreachable for every
node, in particular for well-formed parser output. -/
theorem gen_isSome (m : Node) : (gen m).isSome = true :=
  gen_isSome_aux (sizeOf m) m (le_refl _)

/-- A leading `-` is lexed by the single-character symbol arm of `tokenize`
(via `Reserved::try_from`) as a separate `Minus` token; the literal scanner
is never consulted. -/
theorem tokenize_minus_head (cs : List Char) :
    tokenize ('-' :: cs) = (tokenize cs).map (fun ts => Tok.res .Minus :: ts) := by
  rw [tokenize.eq_def]
  rfl

/-- A leading `+` likewise lexes as a separate `Plus` token. -/
theorem tokenize_plus_head (cs : List Char) :
    tokenize ('+' :: cs) = (tokenize cs).map (fun ts => Tok.res .Plus :: ts) := by
  rw [tokenize.eq_def]
  rfl

/-- `Parser::unary` on a `Minus`-headed cursor: the sole way a negative value
enters the AST, by rewriting `- x` to `Sub(Num 0, x)` around `primary`. -/
theorem unary_minus_rewrite (ts : List Tok) :
    Parser.unary (Tok.res .Minus :: ts) =
      (Parser.primary ts).map
        (fun p => (Node.mk .Sub (some (Node.mk (.Num 0) none none)) (some p.1), p.2)) := by
  cases hp : primaryCore ts with
  | error e =>
    simp only [Parser.unary, Parser.primary]
    rw [unaryCore.eq_def]
    simp [consumeTok, hp, Except.map]
  | ok v =>
    obtain ⟨⟨n, ts2⟩, h2⟩ := v
    simp only [Parser.unary, Parser.primary]
    rw [unaryCore.eq_def]
    simp [consumeTok, hp, Except.map]

/-! ## Claim theorems -/

/-- **C9.** Every AST node produced by any parser rule on success is
well-formed: a node is a leaf iff its kind is a number literal, and every
operator node has both children (recursively); consequently the code
generator's unhandled-kind (`panic!`) branch is unreachable on parser
output. -/
theorem claim_C9_wellformed_ast :
    (∀ ts (n : Node) (rest : List Tok), Parser.expr ts = .ok (n, rest) → wf n = true) ∧
    (∀ ts (n : Node) (rest : List Tok), Parser.equality ts = .ok (n, rest) → wf n = true) ∧
    (∀ ts (n : Node) (rest : List Tok), Parser.relational ts = .ok (n, rest) → wf n = true) ∧
    (∀ ts (n : Node) (rest : List Tok), Parser.add ts = .ok (n, rest) → wf n = true) ∧
    (∀ ts (n : Node) (rest : List Tok), Parser.mul ts = .ok (n, rest) → wf n = true) ∧
    (∀ ts (n : Node) (rest : List Tok), Parser.unary ts = .ok (n, rest) → wf n = true) ∧
    (∀ ts (n : Node) (rest : List Tok), Parser.primary ts = .ok (n, rest) → wf n = true) ∧
    (∀ n : Node, wf n = true → (gen n).isSome = true) := by
  obtain ⟨he, heq, -, hrel, -, hadd, -, hmul, -, hun, hprim⟩ := parserWfAll
  refine ⟨?_, ?_, ?_, ?_, ?_, ?_, ?_, fun n _ => gen_isSome n⟩ <;>
  · intro ts n rest h
    simp only [Parser.expr, Parser.equality, Parser.relational, Parser.add, Parser.mul,
      Parser.unary, Parser.primary] at h
    obtain ⟨hle, hcore⟩ := core_of_map_val h
    first
      | exact he _ _ _ _ hcore
      | exact heq _ _ _ _ hcore
      | exact hrel _ _ _ _ hcore
      | exact hadd _ _ _ _ hcore
      | exact hmul _ _ _ _ hcore
      | exact hun _ _ _ _ hcore
      | exact hprim _ _ _ _ hcore

/-- Witness for C9: the tree parsed from `1 + 2` is well-formed and `gen`
does not panic on it. -/
theorem claim_C9_wellformed_ast_witness :
    wf (Node.mk .Add (some (Node.mk (.Num 1) none none)) (some (Node.mk (.Num 2) none none)))
      = true ∧
    (gen (Node.mk .Add (some (Node.mk (.Num 1) none none))
      (some (Node.mk (.Num 2) none none)))).isSome = true := by
  have h := claim_C9_wellformed_ast
  constructor
  · exact h.1 [Tok.num 1, Tok.res .Plus, Tok.num 2, Tok.eof] _ [Tok.eof]
      (by simp [Parser.expr, exprCore, equalityCore, equalityLoop, relationalCore,
        relationalLoop, addCore, addLoop, mulCore, mulLoop, unaryCore, primaryCore,
        consumeTok, expectTok, expectNumTok, Except.map])
  · exact h.2.2.2.2.2.2.2 _ (by simp [wf])

/-- **C4, counterexample.** The claim says an input with trailing tokens
after a complete expression (e.g. `1 2`) fails with a syntactic error and
produces no assembly.  In fact the pipeline succeeds on `1 2`: `main` never
calls `at_eof`, the parser stops after the leading `1`, and assembly for
`1` is emitted. -/
theorem claim_C4_counterexample :
    compile ['1', ' ', '2'] = .ok [Instr.pushImm 1] := by
  simp [compile, tokenize, takeNumStr, takeNumStrAux, parseIsize, parseDigitsNat, digitsVal,
    reservedOfChar, startWith, Parser.expr, exprCore, equalityCore, equalityLoop,
    relationalCore, relationalLoop, addCore, addLoop, mulCore, mulLoop, unaryCore,
    primaryCore, consumeTok, expectTok, expectNumTok, Except.map, gen, genOp]

/-- **C4, amended.** On an input where a complete expression is followed by
further tokens, the parser stops at the first token that cannot extend the
expression and leaves it unconsumed, and the driver silently ignores the
leftover tokens: `1 2` compiles to the program for `1` (which returns 1),
with no expected-token failure. -/
theorem claim_C4_trailing_garbage_ignored (a b : Int) :
    Parser.expr [Tok.num a, Tok.num b, Tok.eof] =
      .ok (Node.mk (.Num a) none none, [Tok.num b, Tok.eof]) ∧
    compile ['1', ' ', '2'] = .ok [Instr.pushImm 1] ∧
    runProgram [Instr.pushImm 1] = some 1 := by
  refine ⟨?_, ?_, ?_⟩ <;>
    simp [compile, tokenize, takeNumStr, takeNumStrAux, parseIsize, parseDigitsNat, digitsVal,
      reservedOfChar, startWith, Parser.expr, exprCore, equalityCore, equalityLoop,
      relationalCore, relationalLoop, addCore, addLoop, mulCore, mulLoop, unaryCore,
      primaryCore, consumeTok, expectTok, expectNumTok, Except.map, gen, genOp,
      runProgram, runInstrs, stepInstr, initState]

/-- **C2.** Running the full pipeline (tokenize, parse, generate) on
`1 + 2 * 3` yields a program evaluating to 7, on `(1 + 2) * 3` to 9, and on
`2 * (3 + 4) - 5` to 9, under the stack-machine semantics of the emitted
instructions (binary operators pop right then left and push the result; the
epilogue pops the final value as the return value). -/
theorem claim_C2_precedence_pipeline_values :
    pipelineValue ['1', ' ', '+', ' ', '2', ' ', '*', ' ', '3'] = some 7 ∧
    pipelineValue ['(', '1', ' ', '+', ' ', '2', ')', ' ', '*', ' ', '3'] = some 9 ∧
    pipelineValue ['2', ' ', '*', ' ', '(', '3', ' ', '+', ' ', '4', ')', ' ', '-', ' ', '5']
      = some 9 := by
  refine ⟨?_, ?_, ?_⟩ <;>
    simp [pipelineValue, compile, tokenize, takeNumStr, takeNumStrAux, parseIsize,
      parseDigitsNat, digitsVal,
      reservedOfChar, startWith, Parser.expr, exprCore, equalityCore, equalityLoop,
      relationalCore, relationalLoop, addCore, addLoop, mulCore, mulLoop, unaryCore,
      primaryCore, consumeTok, expectTok, expectNumTok, Except.map, gen, genOp, runProgram,
      runInstrs, stepInstr, initState]

/-- **C5.** `take_num_str` skips leading whitespace; on an input whose first
non-whitespace characters are a sign and then a digit it elides a leading
`+`, captures a leading `-` into the returned text unless the digit after it
is `0` (so `-0` yields `Ok("0")` with no sign recorded); if the character
after a leading sign is not a digit, or absent, it fails with the empty
captured text paired with the sign character. -/
theorem claim_C5_sign_handling :
    (∀ (w : Char) (cs : List Char), w.isWhitespace = true →
        takeNumStr (w :: cs) = takeNumStr cs) ∧
    (∀ (s : Char) (tail : List Char), (s = '+' ∨ s = '-') →
        takeNumStr (s :: tail) =
          match tail with
          | [] => (.error ([], s), [s])
          | d :: _ =>
            if d.isDigit then
              if s = '-' ∧ d ≠ '0' then
                mapNumStr (fun t => '-' :: t) (takeNumStr tail)
              else
                takeNumStr tail
            else
              (.error ([], s), s :: tail)) := by
  constructor
  · intro w cs hw
    simp [takeNumStr, takeNumStrAux, hw]
  · intro s tail hs
    rcases hs with rfl | rfl
    · -- s = '+'
      cases tail with
      | nil => rfl
      | cons d tail2 =>
        by_cases hd : d.isDigit = true
        · simp [takeNumStr, takeNumStrAux, hd]
        · simp [takeNumStr, takeNumStrAux, hd]
    · -- s = '-'
      cases tail with
      | nil => rfl
      | cons d tail2 =>
        by_cases hd : d.isDigit = true
        · by_cases hd0 : d = '0'
          · subst hd0
            simp [takeNumStr, takeNumStrAux]
          · have hpre := takeNumStrAux_prepend tail2 ['-'] [d] (by simp)
            have hdpm : ¬(d = '+' ∨ d = '-') := by
              rintro (rfl | rfl) <;> exact absurd hd (by decide)
            have hdws : d.isWhitespace = false := isWhitespace_eq_false_of_isDigit hd
            simp only [takeNumStr, takeNumStrAux, hd, hd0, List.head?_cons]
            simp [hd, hd0, hdpm, hdws, mapNumStr]
            rw [show (['-'] ++ [d] : List Char) = ['-', d] from rfl] at hpre
            rw [hpre]
            rcases takeNumStrAux [d] tail2 with ⟨⟨es, ec⟩ | s, rem⟩ <;> simp [mapNumStr]
        · simp [takeNumStr, takeNumStrAux, hd]

/-- Witness for C5 at concrete inputs: whitespace skipping, a captured `-`,
the `-0` normalization, and a bare sign error. -/
theorem claim_C5_sign_handling_witness :
    takeNumStr [' ', '+', '4'] = takeNumStr ['+', '4'] ∧
    takeNumStr ['-', '7'] = (.ok ['-', '7'], []) ∧
    takeNumStr ['-', '0'] = (.ok ['0'], []) ∧
    takeNumStr ['+'] = (.error ([], '+'), ['+']) := by
  have h := claim_C5_sign_handling
  refine ⟨h.1 ' ' ['+', '4'] (by decide), ?_, ?_, ?_⟩
  · rw [h.2 '-' ['7'] (Or.inr rfl)]
    rfl
  · rw [h.2 '-' ['0'] (Or.inr rfl)]
    rfl
  · rw [h.2 '+' [] (Or.inl rfl)]

/-- **C7.** On every input in which (after any run of whitespace and
single-character symbols) a numeric literal appears whose value does not fit
the 64-bit signed integer width, `tokenize` fails with the primitive
numeric-overflow error: the `Err` value handed to the collaborator is the
bare message `"数ではありません"`, a `String` carrying no byte offset into
the input (unlike the caret-rendered positional errors built later by
`error_at`). -/
theorem claim_C7_overflow_nonpositional (pre : List Char)
    (hpre : pre.all (fun c => c.isWhitespace || (reservedOfChar c).isSome) = true)
    (d : Char) (ds rest : List Char)
    (hd : d.isDigit = true) (hd0 : d ≠ '0') (hds : ds.all Char.isDigit = true)
    (hrest : ∀ c, rest.head? = some c → c.isDigit = false)
    (hbig : 2 ^ 63 - 1 < (digitsVal (d :: ds) : Int)) :
    tokenize (pre ++ (d :: ds ++ rest)) = .error "数ではありません" := by
  induction pre with
  | nil =>
    simpa using tokenize_literal_head_overflow ds rest hd hd0 hds hrest hbig
  | cons p pre2 ih =>
    have hp : p.isWhitespace = true ∨ (reservedOfChar p).isSome = true := by
      simp only [List.all_cons, Bool.and_eq_true, Bool.or_eq_true] at hpre
      exact hpre.1
    have hpre2 : pre2.all (fun c => c.isWhitespace || (reservedOfChar c).isSome) = true := by
      simp only [List.all_cons, Bool.and_eq_true] at hpre
      exact hpre.2
    simp only [List.cons_append] at ih
    rw [List.cons_append, tokenize.eq_def]
    rcases hp with hws | hsym
    · simp [hws, ih hpre2]
    · have hwsf : p.isWhitespace = false := by
        rw [reservedOfChar.eq_def] at hsym
        split at hsym
        all_goals first
          | decide
          | simp at hsym
      simp [hwsf, hsym, ih hpre2, Except.map]

/-- Witness for C7: the literal 9223372036854775808 (2^63, one past the
`isize` maximum) fails to tokenize with the bare overflow message. -/
theorem claim_C7_overflow_nonpositional_witness :
    tokenize ([' '] ++ ('9' ::
        ['2', '2', '3', '3', '7', '2', '0', '3', '6', '8', '5', '4', '7', '7', '5', '8', '0', '8']
      ++ [])) = .error "数ではありません" :=
  claim_C7_overflow_nonpositional [' '] (by decide) '9'
    ['2', '2', '3', '3', '7', '2', '0', '3', '6', '8', '5', '4', '7', '7', '5', '8', '0', '8']
    [] (by decide) (by decide) (by decide)
    (by intro c h; exact absurd h (by simp)) (by decide)

/-- **C3.** For every input consisting solely of one integer literal the
lexer accepts (a digit run with no leading zero — or the single digit `0` —
whose value fits an `isize`), the pipeline succeeds, the generated program
is exactly `push` of that literal (plus the fixed epilogue), and running it
returns exactly that integer. -/
theorem claim_C3_single_literal (d : Char) (ds : List Char)
    (hd : d.isDigit = true) (hz : d = '0' → ds = [])
    (hds : ds.all Char.isDigit = true)
    (hfit : (digitsVal (d :: ds) : Int) ≤ 2 ^ 63 - 1) :
    compile (d :: ds) = .ok [Instr.pushImm (digitsVal (d :: ds))] ∧
    runProgram [Instr.pushImm (digitsVal (d :: ds))] = some (digitsVal (d :: ds)) := by
  constructor
  · by_cases hd0 : d = '0'
    · subst hd0
      rw [hz rfl]
      simp [compile, tokenize, takeNumStr, takeNumStrAux, parseIsize, parseDigitsNat,
        digitsVal, reservedOfChar, startWith, Parser.expr, exprCore, equalityCore,
        equalityLoop, relationalCore, relationalLoop, addCore, addLoop, mulCore, mulLoop,
        unaryCore, primaryCore, consumeTok, expectTok, expectNumTok, Except.map, gen, genOp]
    · have ht : tokenize (d :: ds) = .ok [Tok.num (digitsVal (d :: ds)), Tok.eof] := by
        have := tokenize_literal_head_fit ds [] hd hd0 hds (by intro c h; simp at h) hfit
        simpa [tokenize, Except.map] using this
      have hp : Parser.expr [Tok.num ((digitsVal (d :: ds) : Int)), Tok.eof] =
          .ok (Node.mk (.Num ((digitsVal (d :: ds) : Int))) none none, [Tok.eof]) := by
        simp [Parser.expr, exprCore, equalityCore, equalityLoop, relationalCore,
          relationalLoop, addCore, addLoop, mulCore, mulLoop, unaryCore, primaryCore,
          consumeTok, expectTok, expectNumTok, Except.map]
      simp [compile, ht, hp, gen]
  · simp [runProgram, runInstrs, stepInstr, initState]

/-- Witness for C3: the input `42` compiles to `push 42` and the program
returns 42. -/
theorem claim_C3_single_literal_witness :
    compile ['4', '2'] = .ok [Instr.pushImm 42] ∧
    runProgram [Instr.pushImm 42] = some 42 := by
  have h := claim_C3_single_literal '4' ['2'] (by decide)
    (fun hh => absurd hh (by decide)) (by decide) (by decide)
  simpa [digitsVal] using h

/-- **C6.** `take_num_str` on input whose first digit is `0` terminates the
literal immediately after that `0`: with a following character it errors,
pairing the text `"0"` with that character (so `007` cannot scan past the
first `0`); with nothing following it returns `Ok("0")`. -/
theorem claim_C6_leading_zero_terminates :
    ∀ rest : List Char,
      takeNumStr ('0' :: rest) =
        match rest with
        | [] => (.ok ['0'], [])
        | d :: _ => (.error (['0'], d), rest) := by
  intro rest
  cases rest <;> rfl

/-- **C8.** For every lexer state and reserved symbol, `consume` advances the
token cursor by exactly one token and returns `true` when the next token is
that symbol; otherwise it returns `false` and leaves the whole lexer state
unchanged. -/
theorem claim_C8_consume_frame (l : Lexer) (e : Reserved) :
    Lexer.consume l e =
      if l.tokens.head? = some (Tok.res e) then
        (true, { l with tokens := l.tokens.tail })
      else
        (false, l) := by
  cases l with
  | mk inp chs toks =>
    cases toks with
    | nil => simp [Lexer.consume, consume]
    | cons t rest =>
      cases t with
      | res r =>
        by_cases hr : r = e
        · subst hr
          simp [Lexer.consume, consume]
        · simp [Lexer.consume, consume, hr]
      | num n => simp [Lexer.consume, consume]
      | eof => simp [Lexer.consume, consume]

/-- **C10.** Every `Number` token in a token sequence successfully produced
by `tokenize` carries a nonnegative value — `tokenize` invokes the
signed-integer scanner only when the current character is a digit, so the
scanner's sign-capturing branch is never reached from tokenization; a
leading `-` or `+` always lexes as a separate `Minus`/`Plus` reserved
token; and negative values enter the AST only through the parser's
unary-minus rewrite `- x ↦ Sub(Num 0, x)`. -/
theorem claim_C10_number_tokens_nonneg :
    (∀ (cs : List Char) (toks : List Tok), tokenize cs = .ok toks →
        ∀ n : Int, Tok.num n ∈ toks → 0 ≤ n) ∧
    (∀ cs : List Char,
        tokenize ('-' :: cs) = (tokenize cs).map (fun ts => Tok.res .Minus :: ts)) ∧
    (∀ cs : List Char,
        tokenize ('+' :: cs) = (tokenize cs).map (fun ts => Tok.res .Plus :: ts)) ∧
    (∀ ts : List Tok,
        Parser.unary (Tok.res .Minus :: ts) =
          (Parser.primary ts).map
            (fun p => (Node.mk .Sub (some (Node.mk (.Num 0) none none)) (some p.1), p.2))) :=
  ⟨fun cs toks htok => tokenize_nonneg cs.length cs (le_refl _) toks htok,
   tokenize_minus_head, tokenize_plus_head, unary_minus_rewrite⟩

/-- Witness for C10 at concrete inputs: tokenizing `12` yields the
nonnegative literal token 12, `-1` and `+1` lex as a sign token followed by
the literal 1, and `unary` on a `Minus`-headed cursor builds
`Sub(Num 0, Num 3)`. -/
theorem claim_C10_number_tokens_nonneg_witness :
    (0 : Int) ≤ 12 ∧
    tokenize ['-', '1'] = .ok [Tok.res .Minus, Tok.num 1, Tok.eof] ∧
    tokenize ['+', '1'] = .ok [Tok.res .Plus, Tok.num 1, Tok.eof] ∧
    Parser.unary [Tok.res .Minus, Tok.num 3, Tok.eof] =
      .ok (Node.mk .Sub (some (Node.mk (.Num 0) none none))
            (some (Node.mk (.Num 3) none none)), [Tok.eof]) := by
  obtain ⟨h1, h2, h3, h4⟩ := claim_C10_number_tokens_nonneg
  refine ⟨h1 ['1', '2'] [Tok.num 12, Tok.eof] ?_ 12 ?_, ?_, ?_, ?_⟩
  · simp [tokenize, takeNumStr, takeNumStrAux, parseIsize, parseDigitsNat, digitsVal,
      reservedOfChar, startWith, Except.map]
  · simp
  · rw [h2 ['1']]
    simp [tokenize, takeNumStr, takeNumStrAux, parseIsize, parseDigitsNat, digitsVal,
      reservedOfChar, startWith, Except.map]
  · rw [h3 ['1']]
    simp [tokenize, takeNumStr, takeNumStrAux, parseIsize, parseDigitsNat, digitsVal,
      reservedOfChar, startWith, Except.map]
  · rw [h4 [Tok.num 3, Tok.eof]]
    simp [Parser.primary, primaryCore, consumeTok, expectNumTok, Except.map]

/-- **C1.** For sub-expressions `a` and `b` (token sequences `ta`, `tb` whose
leading expressions parse as `add` to trees `na`, `nb`), parsing `a > b`
yields the same AST as parsing `b < a`: an `Lt` node with the operands
swapped — left child the tree of `b`, right child the tree of `a` — and
`a >= b` versus `b <= a` likewise yields one shared `Le` node; hence code
generation emits identical instruction sequences for the two inputs.  (The
`NodeKind` enum of the parser has no `Gt`/`Ge` constructors at all, so such
kinds cannot appear in any tree.) -/
theorem claim_C1_reversed_relational (ta tb : List Tok) (na nb : Node)
    (h1 : Parser.add (ta ++ (Tok.res .Gt :: (tb ++ [Tok.eof]))) =
            .ok (na, Tok.res .Gt :: (tb ++ [Tok.eof])))
    (h2 : Parser.add (tb ++ [Tok.eof]) = .ok (nb, [Tok.eof]))
    (h3 : Parser.add (tb ++ (Tok.res .Lt :: (ta ++ [Tok.eof]))) =
            .ok (nb, Tok.res .Lt :: (ta ++ [Tok.eof])))
    (h4 : Parser.add (ta ++ [Tok.eof]) = .ok (na, [Tok.eof]))
    (h5 : Parser.add (ta ++ (Tok.res .Ge :: (tb ++ [Tok.eof]))) =
            .ok (na, Tok.res .Ge :: (tb ++ [Tok.eof])))
    (h6 : Parser.add (tb ++ (Tok.res .Le :: (ta ++ [Tok.eof]))) =
            .ok (nb, Tok.res .Le :: (ta ++ [Tok.eof]))) :
    (Parser.expr (ta ++ (Tok.res .Gt :: (tb ++ [Tok.eof]))) =
       .ok (Node.mk .Lt (some nb) (some na), [Tok.eof]) ∧
     Parser.expr (tb ++ (Tok.res .Lt :: (ta ++ [Tok.eof]))) =
       .ok (Node.mk .Lt (some nb) (some na), [Tok.eof]) ∧
     (Parser.expr (ta ++ (Tok.res .Gt :: (tb ++ [Tok.eof])))).map (fun p => gen p.1) =
       (Parser.expr (tb ++ (Tok.res .Lt :: (ta ++ [Tok.eof])))).map (fun p => gen p.1)) ∧
    (Parser.expr (ta ++ (Tok.res .Ge :: (tb ++ [Tok.eof]))) =
       .ok (Node.mk .Le (some nb) (some na), [Tok.eof]) ∧
     Parser.expr (tb ++ (Tok.res .Le :: (ta ++ [Tok.eof]))) =
       .ok (Node.mk .Le (some nb) (some na), [Tok.eof]) ∧
     (Parser.expr (ta ++ (Tok.res .Ge :: (tb ++ [Tok.eof])))).map (fun p => gen p.1) =
       (Parser.expr (tb ++ (Tok.res .Le :: (ta ++ [Tok.eof])))).map (fun p => gen p.1)) := by
  simp only [Parser.add] at h1 h2 h3 h4 h5 h6
  obtain ⟨hle1, hc1⟩ := core_of_map_val h1
  obtain ⟨hle2, hc2⟩ := core_of_map_val h2
  obtain ⟨hle3, hc3⟩ := core_of_map_val h3
  obtain ⟨hle4, hc4⟩ := core_of_map_val h4
  obtain ⟨hle5, hc5⟩ := core_of_map_val h5
  obtain ⟨hle6, hc6⟩ := core_of_map_val h6
  have hgt : Parser.expr (ta ++ (Tok.res .Gt :: (tb ++ [Tok.eof]))) =
      .ok (Node.mk .Lt (some nb) (some na), [Tok.eof]) := by
    simp [Parser.expr, exprCore, equalityCore, equalityLoop, relationalCore, relationalLoop,
      consumeTok, hc1, hc2, Except.map]
  have hlt : Parser.expr (tb ++ (Tok.res .Lt :: (ta ++ [Tok.eof]))) =
      .ok (Node.mk .Lt (some nb) (some na), [Tok.eof]) := by
    simp [Parser.expr, exprCore, equalityCore, equalityLoop, relationalCore, relationalLoop,
      consumeTok, hc3, hc4, Except.map]
  have hge : Parser.expr (ta ++ (Tok.res .Ge :: (tb ++ [Tok.eof]))) =
      .ok (Node.mk .Le (some nb) (some na), [Tok.eof]) := by
    simp [Parser.expr, exprCore, equalityCore, equalityLoop, relationalCore, relationalLoop,
      consumeTok, hc5, hc2, Except.map]
  have hle : Parser.expr (tb ++ (Tok.res .Le :: (ta ++ [Tok.eof]))) =
      .ok (Node.mk .Le (some nb) (some na), [Tok.eof]) := by
    simp [Parser.expr, exprCore, equalityCore, equalityLoop, relationalCore, relationalLoop,
      consumeTok, hc6, hc4, Except.map]
  exact ⟨⟨hgt, hlt, by rw [hgt, hlt]⟩, ⟨hge, hle, by rw [hge, hle]⟩⟩

/-- Witness for C1 at `a = 1`, `b = 2`: `1 > 2` and `2 < 1` parse to the
same swapped `Lt` tree, and the `>=`/`<=` pair generates identical
instruction sequences. -/
theorem claim_C1_reversed_relational_witness :
    (Parser.expr [Tok.num 1, Tok.res .Gt, Tok.num 2, Tok.eof] =
       .ok (Node.mk .Lt (some (Node.mk (.Num 2) none none))
             (some (Node.mk (.Num 1) none none)), [Tok.eof]) ∧
     Parser.expr [Tok.num 2, Tok.res .Lt, Tok.num 1, Tok.eof] =
       .ok (Node.mk .Lt (some (Node.mk (.Num 2) none none))
             (some (Node.mk (.Num 1) none none)), [Tok.eof])) ∧
    (Parser.expr [Tok.num 1, Tok.res .Ge, Tok.num 2, Tok.eof]).map (fun p => gen p.1) =
      (Parser.expr [Tok.num 2, Tok.res .Le, Tok.num 1, Tok.eof]).map (fun p => gen p.1) := by
  have h := claim_C1_reversed_relational [Tok.num 1] [Tok.num 2]
    (Node.mk (.Num 1) none none) (Node.mk (.Num 2) none none)
    (by simp [Parser.add, addCore, addLoop, mulCore, mulLoop, unaryCore, primaryCore,
          consumeTok, expectNumTok, Except.map])
    (by simp [Parser.add, addCore, addLoop, mulCore, mulLoop, unaryCore, primaryCore,
          consumeTok, expectNumTok, Except.map])
    (by simp [Parser.add, addCore, addLoop, mulCore, mulLoop, unaryCore, primaryCore,
          consumeTok, expectNumTok, Except.map])
    (by simp [Parser.add, addCore, addLoop, mulCore, mulLoop, unaryCore, primaryCore,
          consumeTok, expectNumTok, Except.map])
    (by simp [Parser.add, addCore, addLoop, mulCore, mulLoop, unaryCore, primaryCore,
          consumeTok, expectNumTok, Except.map])
    (by simp [Parser.add, addCore, addLoop, mulCore, mulLoop, unaryCore, primaryCore,
          consumeTok, expectNumTok, Except.map])
  obtain ⟨⟨hgt, hlt, hmap1⟩, hge, hle, hmap2⟩ := h
  refine ⟨⟨?_, ?_⟩, ?_⟩
  · simpa using hgt
  · simpa using hlt
  · simpa using hmap2

end CCompiler
